import Mathlib

/-!
Verification development for the account selection and rate-limit/cooldown
state engine (AccountManager) of the opencode-antigravity-auth repository,
together with the OAuth callback listener's settlement logic (server.ts).

The AccountManager implementation itself is not among the repository files
available here (only its test suites are), so its operations are modelled
from the specification's words, constrained by the behaviour the test files
pin down.  The listener state machine is embedded from src/plugin/server.ts.

All time is wall-clock milliseconds, passed explicitly as a `now` argument:
the code computes expiry lazily by comparing stored timestamps to `Date.now()`
at query time, which the embedding mirrors by threading `now`.
-/

namespace Antigravity

/-- Modelled from the spec: model family values are "claude" and "gemini". -/
inductive ModelFamily where
  | claude
  | gemini
deriving DecidableEq, Repr

/-- Modelled from the spec: header style values are "antigravity" and
"gemini-cli". -/
inductive HeaderStyle where
  | antigravity
  | geminiCli
deriving DecidableEq, Repr

/-- Modelled from the spec: a rate-limit key at one of three granularities:
family-only (style and model absent), family+headerStyle (model absent), or
family+headerStyle+model. -/
structure RLKey where
  family : ModelFamily
  style : Option HeaderStyle
  model : Option String
deriving DecidableEq, Repr

/-- Association-list lookup (first binding wins), used for all the small
string/family keyed maps of the model. -/
def lookupA {α β : Type} [DecidableEq α] : List (α × β) → α → Option β
  | [], _ => none
  | (k, v) :: rest, k1 => if k1 = k then some v else lookupA rest k1

/-- Association-list update: overwrites any prior value at exactly that key. -/
def updateA {α β : Type} [DecidableEq α] (l : List (α × β)) (k : α) (v : β) :
    List (α × β) :=
  (k, v) :: l.filter (fun p => decide (p.1 ≠ k))

/-- Modelled from the spec: a single credential's mutable bookkeeping record.
`rateLimitResetTimes` maps a composite key to a future timestamp (absence of a
key means not limited at that granularity); `cooldownUntil`/`cooldownReason`
is the single account-wide cooldown window; `touchedForQuota` maps an opaque
quota key to the timestamp it was last used; `index` is the account's current
position in the live sequence. -/
structure Account where
  refreshToken : String
  projectId : String
  access : Option String := none
  expires : Option Nat := none
  addedAt : Nat := 0
  lastUsed : Nat := 0
  rateLimitResetTimes : List (RLKey × Nat) := []
  cooldownUntil : Option Nat := none
  cooldownReason : Option String := none
  touchedForQuota : List (String × Nat) := []
  consecutiveFailures : Option Nat := none
  index : Nat := 0
deriving DecidableEq, Repr

/-- True when the account has a reset timestamp at exactly this key that is
still in the future (a reset timestamp in the past is equivalent to absence). -/
def keyUnexpired (acc : Account) (k : RLKey) (now : Nat) : Bool :=
  match lookupA acc.rateLimitResetTimes k with
  | some reset => decide (now < reset)
  | none => false

/-- Modelled from the spec: markRateLimited sets `reset = now + durationMs` at
the key formed from the given granularity, overwriting any prior value at that
exact key.  (Account-level core; the manager applies it to the identified
account and persists.) -/
def markRateLimitedAcc (acc : Account) (durationMs : Nat) (family : ModelFamily)
    (style : Option HeaderStyle) (model : Option String) (now : Nat) : Account :=
  { acc with rateLimitResetTimes :=
      updateA acc.rateLimitResetTimes ⟨family, style, model⟩ (now + durationMs) }

/-- Modelled from the spec: isRateLimitedForHeaderStyle is true if ANY of: the
family-level key is unexpired, the header-style-level key (no model) is
unexpired, or the exact header-style+model key is unexpired (the last checked
only when a model is supplied). -/
def isRateLimitedForHeaderStyle (acc : Account) (family : ModelFamily)
    (style : HeaderStyle) (model : Option String) (now : Nat) : Bool :=
  keyUnexpired acc ⟨family, none, none⟩ now ||
  keyUnexpired acc ⟨family, some style, none⟩ now ||
  (match model with
   | some m => keyUnexpired acc ⟨family, some style, some m⟩ now
   | none => false)

/-- Modelled from the spec: family-specific header style priority order: the
gemini family tries antigravity then gemini-cli; claude has only antigravity. -/
def stylePriority : ModelFamily → List HeaderStyle
  | ModelFamily.claude => [HeaderStyle.antigravity]
  | ModelFamily.gemini => [HeaderStyle.antigravity, HeaderStyle.geminiCli]

/-- Modelled from the spec: getAvailableHeaderStyle returns the first header
style, in family-specific priority order, that is not rate-limited; null when
none is available. -/
def getAvailableHeaderStyle (acc : Account) (family : ModelFamily)
    (model : Option String) (now : Nat) : Option HeaderStyle :=
  (stylePriority family).find?
    (fun hs => !(isRateLimitedForHeaderStyle acc family hs model now))

/-- Modelled from the spec: isAccountCoolingDown is true if `now <
cooldownUntil`. -/
def isAccountCoolingDown (acc : Account) (now : Nat) : Bool :=
  match acc.cooldownUntil with
  | some untilT => decide (now < untilT)
  | none => false

/-- Modelled from the spec: the eligibility predicate shared by all selection
strategies: not cooling down AND some header style is available. -/
def eligibleAccount (acc : Account) (family : ModelFamily)
    (model : Option String) (now : Nat) : Bool :=
  !isAccountCoolingDown acc now &&
    (getAvailableHeaderStyle acc family model now).isSome


/-- Modelled from the spec: markAccountCoolingDown sets a single
`{until: now+durationMs, reason}` on the account, replacing any prior
cooldown. -/
def markAccountCoolingDownAcc (acc : Account) (durationMs : Nat)
    (reason : String) (now : Nat) : Account :=
  { acc with cooldownUntil := some (now + durationMs),
             cooldownReason := some reason }

/-- Modelled from the spec: clearAccountCooldown removes cooldown state
unconditionally. -/
def clearAccountCooldownAcc (acc : Account) : Account :=
  { acc with cooldownUntil := none, cooldownReason := none }

/-- Modelled from the spec: the quota key derived from a family (the family's
name as an opaque string). -/
def quotaKeyOfFamily : ModelFamily → String
  | ModelFamily.claude => "claude"
  | ModelFamily.gemini => "gemini"

/-- String form of a header style, as used inside composite quota keys. -/
def styleName : HeaderStyle → String
  | HeaderStyle.antigravity => "antigravity"
  | HeaderStyle.geminiCli => "gemini-cli"

/-- Modelled from the spec: whether a rate-limit key is relevant to a quota
key (quota keys are typically `family` or `family:headerStyle`). -/
def rlKeyRelevantTo (k : RLKey) (q : String) : Bool :=
  decide (q = quotaKeyOfFamily k.family) ||
  (match k.style with
   | some s => decide (q = quotaKeyOfFamily k.family ++ ":" ++ styleName s)
   | none => false)

/-- The account's most recent (largest) rate-limit reset time among the keys
relevant to a quota key, if any. -/
def maxRelevantReset (acc : Account) (q : String) : Option Nat :=
  (acc.rateLimitResetTimes.filter (fun kv => rlKeyRelevantTo kv.1 q)).foldr
    (fun kv m =>
      match m with
      | none => some kv.2
      | some x => some (max kv.2 x)) none

/-- Modelled from the spec: markTouchedForQuota records `now` under
`touchedForQuota[key]`. -/
def markTouchedForQuotaAcc (acc : Account) (key : String) (now : Nat) :
    Account :=
  { acc with touchedForQuota := updateA acc.touchedForQuota key now }

/-- Modelled from the spec: isFreshForQuota is true if never touched under
`key`, or if the account's most recent relevant rate-limit reset time for
that key has passed since the last touch (the quota window has rolled over);
false otherwise. -/
def isFreshForQuota (acc : Account) (key : String) (now : Nat) : Bool :=
  match lookupA acc.touchedForQuota key with
  | none => true
  | some t =>
    match maxRelevantReset acc key with
    | some r => decide (t < r) && decide (r ≤ now)
    | none => false

/-- Modelled from the spec: the three pluggable selection policies. -/
inductive Strategy where
  | sticky
  | roundRobin
  | hybrid
deriving DecidableEq, Repr

/-- Modelled from the spec: AccountManager state: the ordered account
sequence, the per-family cursor map with the legacy single global cursor as
fallback, the auxiliary per-strategy cursors, and the toast-debounce map. -/
structure AccountManager where
  accounts : List Account
  activeIndex : Nat := 0
  activeIndexByFamily : List (ModelFamily × Nat) := []
  roundRobinCursorByFamily : List (ModelFamily × Nat) := []
  hybridCursorByFamily : List (ModelFamily × Nat) := []
  toastShownAt : List (Nat × Nat) := []
deriving DecidableEq, Repr

/-- Modelled from the spec: the cursor for a family: the per-family entry,
falling back to the legacy global cursor; a malformed cursor (index outside
the current account count) is clamped to 0 rather than treated as fatal. -/
def cursorForFamily (m : AccountManager) (family : ModelFamily) : Nat :=
  if (lookupA m.activeIndexByFamily family).getD m.activeIndex
      < m.accounts.length
  then (lookupA m.activeIndexByFamily family).getD m.activeIndex
  else 0

/-- Record a new per-family cursor value. -/
def setFamilyCursor (m : AccountManager) (family : ModelFamily) (i : Nat) :
    AccountManager :=
  { m with activeIndexByFamily := updateA m.activeIndexByFamily family i }

/-- Modelled from the spec: getCurrentAccountForFamily is a pure read of the
account at the family's cursor, with no eligibility check. -/
def getCurrentAccountForFamily (m : AccountManager) (family : ModelFamily) :
    Option Account :=
  m.accounts[cursorForFamily m family]?

/-- Circular forward scan: starting at position `start` (taken modulo the
pool size), test up to `steps` accounts in ascending circular order and
return the index of the first eligible one. -/
def firstEligibleFrom (accs : List Account) (family : ModelFamily)
    (model : Option String) (now : Nat) (start : Nat) : Nat → Option Nat
  | 0 => none
  | Nat.succ k =>
    match accs[start % accs.length]? with
    | some a =>
      if eligibleAccount a family model now then some (start % accs.length)
      else firstEligibleFrom accs family model now (start % accs.length + 1) k
    | none => none

/-- Modelled from the spec: sticky scan anchored at cursor `c`: evaluate the
account at `c` first; if eligible return its index; otherwise scan forward
circularly (c+1, c+2, ... wrapping) through the remaining pool for the first
eligible account. -/
def stickyScan (m : AccountManager) (family : ModelFamily)
    (model : Option String) (now : Nat) (c : Nat) : Option Nat :=
  match m.accounts[c]? with
  | some a =>
    if eligibleAccount a family model now then some c
    else firstEligibleFrom m.accounts family model now (c + 1)
        (m.accounts.length - 1)
  | none => none

/-- Modelled from the spec: sticky selection: if the cursor account is
eligible return it unchanged (cursor not moved); otherwise move the cursor to
the first eligible account of the forward scan; if the full cycle yields
none, return null and leave the cursor unchanged. -/
def getCurrentOrNextSticky (m : AccountManager) (family : ModelFamily)
    (model : Option String) (now : Nat) : Option Account × AccountManager :=
  match stickyScan m family model now (cursorForFamily m family) with
  | some i =>
    (m.accounts[i]?,
     if i = cursorForFamily m family then m else setFamilyCursor m family i)
  | none => (none, m)

/-- Modelled from the spec: round-robin selection: always advance the
strategy's own cursor by one before testing, skipping ineligible accounts for
up to `count` steps; leave the cursor at the returned index. -/
def getCurrentOrNextRoundRobin (m : AccountManager) (family : ModelFamily)
    (model : Option String) (now : Nat) : Option Account × AccountManager :=
  match firstEligibleFrom m.accounts family model now
      ((lookupA m.roundRobinCursorByFamily family).getD 0 + 1)
      m.accounts.length with
  | some i =>
    (m.accounts[i]?,
     { m with roundRobinCursorByFamily :=
         updateA m.roundRobinCursorByFamily family i })
  | none => (none, m)

/-- Index of the first account satisfying a predicate, in ascending index
order. -/
def firstIdxWhere (p : Account → Bool) : List Account → Option Nat
  | [] => none
  | a :: rest => if p a then some 0 else (firstIdxWhere p rest).map (· + 1)

/-- Apply a function to the element at one position of a list. -/
def modifyAt {α : Type} : List α → Nat → (α → α) → List α
  | [], _, _ => []
  | a :: rest, 0, f => f a :: rest
  | a :: rest, Nat.succ i, f => a :: modifyAt rest i f

/-- Modelled from the spec: hybrid selection: prefer, in ascending index
order, any account that is fresh for the quota key derived from the family
and eligible (the chosen account is marked touched and remembered as the last
hybrid-selected index); only when every account has been touched does it fall
back to sticky behaviour anchored at the last hybrid-selected index. -/
def getCurrentOrNextHybrid (m : AccountManager) (family : ModelFamily)
    (model : Option String) (now : Nat) : Option Account × AccountManager :=
  match firstIdxWhere
      (fun a => isFreshForQuota a (quotaKeyOfFamily family) now &&
        eligibleAccount a family model now)
      m.accounts with
  | some i =>
    ((m.accounts[i]?).map
        (fun a => markTouchedForQuotaAcc a (quotaKeyOfFamily family) now),
     { m with
        accounts := modifyAt m.accounts i
          (fun a => markTouchedForQuotaAcc a (quotaKeyOfFamily family) now),
        hybridCursorByFamily := updateA m.hybridCursorByFamily family i })
  | none =>
    match stickyScan m family model now
        (if (lookupA m.hybridCursorByFamily family).getD 0 < m.accounts.length
         then (lookupA m.hybridCursorByFamily family).getD 0 else 0) with
    | some i =>
      (m.accounts[i]?,
       { m with hybridCursorByFamily := updateA m.hybridCursorByFamily family i })
    | none => (none, m)

/-- Modelled from the spec: getCurrentOrNextForFamily dispatches on the
selection strategy (sticky is the default). -/
def getCurrentOrNextForFamily (m : AccountManager) (family : ModelFamily)
    (model : Option String) (strategy : Strategy) (now : Nat) :
    Option Account × AccountManager :=
  match strategy with
  | Strategy.sticky => getCurrentOrNextSticky m family model now
  | Strategy.roundRobin => getCurrentOrNextRoundRobin m family model now
  | Strategy.hybrid => getCurrentOrNextHybrid m family model now

/-- Modelled from the spec: getNextForFamily is the forcing variant: it
always starts scanning from `cursor + 1`, otherwise identical to sticky's
forward scan (the scan runs one full cycle, so the cursor account is the last
candidate considered). -/
def getNextForFamily (m : AccountManager) (family : ModelFamily)
    (model : Option String) (now : Nat) : Option Account × AccountManager :=
  match firstEligibleFrom m.accounts family model now
      (cursorForFamily m family + 1) m.accounts.length with
  | some i => (m.accounts[i]?, setFamilyCursor m family i)
  | none => (none, m)

/-- Accounts share identity exactly when their refresh-token/project-id pairs
agree. -/
def sameIdentity (a b : Account) : Bool :=
  decide (a.refreshToken = b.refreshToken) && decide (a.projectId = b.projectId)

/-- Recompute the `index` field of every account from its position, starting
at `i`. -/
def reindexFrom : Nat → List Account → List Account
  | _, [] => []
  | i, a :: rest => { a with index := i } :: reindexFrom (i + 1) rest

/-- Remove the element at one position of a list. -/
def eraseAt {α : Type} : List α → Nat → List α
  | [], _ => []
  | _ :: rest, 0 => rest
  | a :: rest, Nat.succ i => a :: eraseAt rest i

/-- Cursor adjustment after removing the account at index `removed`: a cursor
at or after the removed position is decremented by one (saturating at 0). -/
def adjustCursor (removed c : Nat) : Nat :=
  if removed ≤ c then c - 1 else c

/-- Apply the cursor adjustment across a per-family cursor map. -/
def adjustCursorMap (removed : Nat) (l : List (ModelFamily × Nat)) :
    List (ModelFamily × Nat) :=
  l.map (fun p => (p.1, adjustCursor removed p.2))

/-- Modelled from the spec: removeAccount deletes the account from the
sequence by identity, recomputes indices, and adjusts every cursor that
referenced a position at or after the removed index. -/
def removeAccount (m : AccountManager) (acc : Account) : AccountManager :=
  match firstIdxWhere (fun a => sameIdentity a acc) m.accounts with
  | none => m
  | some i =>
    { accounts := reindexFrom 0 (eraseAt m.accounts i),
      activeIndex := adjustCursor i m.activeIndex,
      activeIndexByFamily := adjustCursorMap i m.activeIndexByFamily,
      roundRobinCursorByFamily := adjustCursorMap i m.roundRobinCursorByFamily,
      hybridCursorByFamily := adjustCursorMap i m.hybridCursorByFamily,
      toastShownAt := m.toastShownAt }

/-- Modelled from the spec: a stored account record, as the storage
collaborator persists it (no ephemeral access/expires fields). -/
structure StoredAccount where
  refreshToken : String
  projectId : String
  addedAt : Nat := 0
  lastUsed : Nat := 0
  rateLimitResetTimes : List (RLKey × Nat) := []
  cooldownUntil : Option Nat := none
  cooldownReason : Option String := none
  touchedForQuota : List (String × Nat) := []
  consecutiveFailures : Option Nat := none
deriving DecidableEq, Repr

/-- Modelled from the spec: the storage snapshot: account list and cursors. -/
structure AccountStorageV3 where
  accounts : List StoredAccount
  activeIndex : Nat := 0
  activeIndexByFamily : Option (List (ModelFamily × Nat)) := none
deriving DecidableEq, Repr

/-- Modelled from the spec: the externally supplied fallback credential:
refresh token (carrying the refresh-token/project-id identity joined by a
separator), access token and expiry. -/
structure OAuthAuthDetails where
  refresh : String
  access : String
  expires : Nat
deriving DecidableEq, Repr

/-- Lift a stored record to a live account (ephemeral fields unset). -/
def accountOfStored (sa : StoredAccount) : Account :=
  { refreshToken := sa.refreshToken, projectId := sa.projectId,
    addedAt := sa.addedAt, lastUsed := sa.lastUsed,
    rateLimitResetTimes := sa.rateLimitResetTimes,
    cooldownUntil := sa.cooldownUntil, cooldownReason := sa.cooldownReason,
    touchedForQuota := sa.touchedForQuota,
    consecutiveFailures := sa.consecutiveFailures }

/-- Whether the fallback credential's identity matches a refresh-token /
project-id pair. -/
def fallbackMatches (fb : OAuthAuthDetails) (rt pid : String) : Bool :=
  decide (fb.refresh = rt ++ "|" ++ pid)

/-- Attach the fallback's ephemeral access/expires to a matching account. -/
def attachFallback (fb : OAuthAuthDetails) (a : Account) : Account :=
  if fallbackMatches fb a.refreshToken a.projectId then
    { a with access := some fb.access, expires := some fb.expires }
  else a

/-- Synthesize a single account from the fallback credential (storage
absent). -/
def accountOfFallback (fb : OAuthAuthDetails) : Account :=
  match fb.refresh.splitOn "|" with
  | rt :: rest =>
    { refreshToken := rt, projectId := String.intercalate "|" rest,
      access := some fb.access, expires := some fb.expires }
  | [] =>
    { refreshToken := fb.refresh, projectId := "",
      access := some fb.access, expires := some fb.expires }

/-- Modelled from the spec: construction: if storage is present its account
list and cursors become the initial state verbatim (even if empty), with the
fallback's ephemeral fields attached to the one identity-matching stored
account; if storage is absent a single account is synthesized from the
fallback credential. -/
def mkAccountManager (fallback : Option OAuthAuthDetails)
    (storage : Option AccountStorageV3) : AccountManager :=
  match storage with
  | some s =>
    let base := s.accounts.map accountOfStored
    let merged :=
      match fallback with
      | some fb => base.map (attachFallback fb)
      | none => base
    { accounts := reindexFrom 0 merged,
      activeIndex := s.activeIndex,
      activeIndexByFamily := s.activeIndexByFamily.getD [] }
  | none =>
    match fallback with
    | some fb => { accounts := reindexFrom 0 [accountOfFallback fb] }
    | none => { accounts := [] }

/-- Serializable copy of the live account sequence. -/
def getAccountsSnapshot (m : AccountManager) : List Account := m.accounts

/-- Size of the live account sequence. -/
def getAccountCount (m : AccountManager) : Nat := m.accounts.length

/-! OAuth callback listener settlement logic, embedded from
src/plugin/server.ts.  The callback promise's fate is the pair of the
`settled` flag and the recorded outcome; the four racing events (an incoming
callback request, the timeout firing, a server error, close()) each funnel
through resolveCallback/rejectCallback, which are guarded by `settled`. -/

/-- How the callback promise settles: resolved with the callback URL, or
rejected with an error message. -/
inductive CallbackOutcome where
  | resolvedUrl (url : String)
  | rejected (message : String)
deriving DecidableEq, Repr

/-- The settlement state of startOAuthListener's callback promise. -/
structure ListenerState where
  settled : Bool := false
  outcome : Option CallbackOutcome := none
deriving DecidableEq, Repr

/-- Embeds resolveCallback of server.ts: if settled, return; otherwise mark
settled, clear the timeout, and resolve with the URL. -/
def resolveCallback (s : ListenerState) (url : String) : ListenerState :=
  if s.settled then s
  else { settled := true, outcome := some (CallbackOutcome.resolvedUrl url) }

/-- Embeds rejectCallback of server.ts: if settled, return; otherwise mark
settled, clear the timeout, and reject with the error. -/
def rejectCallback (s : ListenerState) (message : String) : ListenerState :=
  if s.settled then s
  else { settled := true, outcome := some (CallbackOutcome.rejected message) }

/-- The four events that race to settle the callback promise. -/
inductive ListenerEvent where
  | callbackRequest (url : String)
  | timeoutFired
  | serverError (message : String)
  | closeCalled
deriving DecidableEq, Repr

/-- Error message of the listener timeout (server.ts). -/
def timeoutMessage : String := "Timed out waiting for OAuth callback"

/-- Error message rejectCallback receives when close() finds the promise
unsettled (server.ts). -/
def closedMessage : String := "OAuth listener closed before callback"

/-- Embeds the event handlers of server.ts: a callback request resolves with
the URL; the timeout and server errors reject; close() rejects with the
closed message only when the promise is not yet settled. -/
def listenerStep (s : ListenerState) : ListenerEvent → ListenerState
  | ListenerEvent.callbackRequest url => resolveCallback s url
  | ListenerEvent.timeoutFired => rejectCallback s timeoutMessage
  | ListenerEvent.serverError msg => rejectCallback s msg
  | ListenerEvent.closeCalled =>
    if s.settled then s else rejectCallback s closedMessage

/-- Run a sequence of racing events against the listener state. -/
def runListener (s : ListenerState) : List ListenerEvent → ListenerState
  | [] => s
  | e :: es => runListener (listenerStep s e) es

/-- Embeds close() of server.ts: server.close reports an optional error code
to the callback; a real error (other than ERR_SERVER_NOT_RUNNING) rejects the
close promise without touching the callback promise; otherwise close rejects
the callback promise when unsettled and completes without error. -/
def closeListener (s : ListenerState) (serverCloseErrorCode : Option String) :
    ListenerState × Except String Unit :=
  match serverCloseErrorCode with
  | some code =>
    if code = "ERR_SERVER_NOT_RUNNING" then
      (if s.settled then s else rejectCallback s closedMessage, Except.ok ())
    else (s, Except.error code)
  | none =>
    (if s.settled then s else rejectCallback s closedMessage, Except.ok ())

/-- The outcome each event produces when it is the first to settle. -/
def eventOutcome : ListenerEvent → CallbackOutcome
  | ListenerEvent.callbackRequest url => CallbackOutcome.resolvedUrl url
  | ListenerEvent.timeoutFired => CallbackOutcome.rejected timeoutMessage
  | ListenerEvent.serverError msg => CallbackOutcome.rejected msg
  | ListenerEvent.closeCalled => CallbackOutcome.rejected closedMessage

/-- Storage snapshot used as the concrete input of selection witnesses. -/
def wStore2 : AccountStorageV3 :=
  { accounts := [{ refreshToken := "r1", projectId := "p1" },
                 { refreshToken := "r2", projectId := "p2" }],
    activeIndex := 0 }

/-- Two-account manager used as the concrete input of selection witnesses. -/
def wM2 : AccountManager := mkAccountManager none (some wStore2)

/-- First account of `wM2`, as constructed. -/
def wA0 : Account := { refreshToken := "r1", projectId := "p1" }

/-- Single-account manager used as a concrete input by counterexamples and
witnesses. -/
def wM1 : AccountManager :=
  mkAccountManager none
    (some { accounts := [{ refreshToken := "r1", projectId := "p1" }],
            activeIndex := 0 })

/-- Single-account manager whose only account carries a family-level claude
rate limit, used as the concrete exhaustion input. -/
def wM1blocked : AccountManager :=
  { wM1 with
    accounts := modifyAt wM1.accounts 0
      (fun a => markRateLimitedAcc a 60000 ModelFamily.claude none none 0) }

/-- State after k consecutive hybrid-strategy selection calls for one family
(the iteration the hybrid round-robin property quantifies over). -/
def hybridIter (m : AccountManager) (family : ModelFamily)
    (model : Option String) (now : Nat) : Nat → AccountManager
  | 0 => m
  | Nat.succ k =>
    (getCurrentOrNextForFamily (hybridIter m family model now k) family model
      Strategy.hybrid now).2

/-- Invariant of the hybrid iteration over an initially untouched pool: the
pool size is unchanged, the hybrid cursor remembers the last selected index,
the first k accounts are exactly the original ones stamped touched at `now`,
and the rest are untouched originals. -/
def touchInv (m s : AccountManager) (family : ModelFamily) (now k : Nat) :
    Prop :=
  s.accounts.length = m.accounts.length ∧
  (0 < k → lookupA s.hybridCursorByFamily family = some (k - 1)) ∧
  ∀ i : Nat,
    (i < k → s.accounts[i]? = (m.accounts[i]?).map
      (fun a => markTouchedForQuotaAcc a (quotaKeyOfFamily family) now)) ∧
    (k ≤ i → s.accounts[i]? = m.accounts[i]?)

/-- Decidable form of the pool invariant that every account's `index` field
equals its position in the live sequence (construction and removal re-derive
it). -/
def wellIndexed (accs : List Account) : Bool :=
  (List.range accs.length).all (fun i =>
    match accs[i]? with
    | some a => a.index == i
    | none => true)

/-- Three-account storage with the legacy cursor on the middle account, as in
the repository's removal test. -/
def wStore3 : AccountStorageV3 :=
  { accounts := [{ refreshToken := "r1", projectId := "p1" },
                 { refreshToken := "r2", projectId := "p2" },
                 { refreshToken := "r3", projectId := "p3" }],
    activeIndex := 1 }

/-- Three-account manager built from `wStore3`. -/
def wM3 : AccountManager := mkAccountManager none (some wStore3)

/-- Identity of the middle account of `wM3`. -/
def wA1 : Account := { refreshToken := "r2", projectId := "p2" }

/-! Helper lemmas. -/

theorem lookupA_filter_ne {α β : Type} [DecidableEq α]
    (l : List (α × β)) (k k1 : α) (h : k1 ≠ k) :
    lookupA (l.filter (fun p => decide (p.1 ≠ k))) k1 = lookupA l k1 := by
  induction l with
  | nil => rfl
  | cons p rest ih =>
    cases p with
    | mk a b =>
      by_cases hp : a = k
      · have : lookupA rest k1 = lookupA ((a, b) :: rest) k1 := by
          have hk1 : k1 ≠ a := fun hc => h (hc.trans hp)
          simp [lookupA, hk1]
        rw [← this, ← ih]
        simp [List.filter, hp]
      · by_cases hk1 : k1 = a
        · simp [List.filter, hp, lookupA, hk1]
        · simpa [List.filter, hp, lookupA, hk1] using ih

theorem lookupA_updateA {α β : Type} [DecidableEq α]
    (l : List (α × β)) (k k1 : α) (v : β) :
    lookupA (updateA l k v) k1 = if k1 = k then some v else lookupA l k1 := by
  unfold updateA
  by_cases h : k1 = k
  · simp [lookupA, h]
  · simp only [lookupA, if_neg h]
    exact lookupA_filter_ne l k k1 h

theorem keyUnexpired_mark (acc : Account) (d : Nat) (fam : ModelFamily)
    (st : Option HeaderStyle) (md : Option String) (now q : Nat) (k : RLKey) :
    keyUnexpired (markRateLimitedAcc acc d fam st md now) k q =
      if k = ⟨fam, st, md⟩ then decide (q < now + d)
      else keyUnexpired acc k q := by
  unfold keyUnexpired markRateLimitedAcc
  simp only [lookupA_updateA]
  by_cases h : k = (⟨fam, st, md⟩ : RLKey) <;> simp [h]

theorem keyUnexpired_of_nil (acc : Account)
    (h : acc.rateLimitResetTimes = []) (k : RLKey) (q : Nat) :
    keyUnexpired acc k q = false := by
  unfold keyUnexpired
  rw [h]
  rfl

theorem getAvailable_gemini (acc : Account) (model : Option String)
    (now : Nat) :
    getAvailableHeaderStyle acc ModelFamily.gemini model now =
      (if isRateLimitedForHeaderStyle acc ModelFamily.gemini
          HeaderStyle.antigravity model now = false
       then some HeaderStyle.antigravity
       else if isRateLimitedForHeaderStyle acc ModelFamily.gemini
          HeaderStyle.geminiCli model now = false
       then some HeaderStyle.geminiCli
       else none) := by
  cases h1 : isRateLimitedForHeaderStyle acc ModelFamily.gemini
      HeaderStyle.antigravity model now <;>
    cases h2 : isRateLimitedForHeaderStyle acc ModelFamily.gemini
        HeaderStyle.geminiCli model now <;>
    simp [getAvailableHeaderStyle, stylePriority, List.find?, h1, h2]

theorem getAvailable_claude (acc : Account) (model : Option String)
    (now : Nat) :
    getAvailableHeaderStyle acc ModelFamily.claude model now =
      (if isRateLimitedForHeaderStyle acc ModelFamily.claude
          HeaderStyle.antigravity model now = false
       then some HeaderStyle.antigravity
       else none) := by
  cases h1 : isRateLimitedForHeaderStyle acc ModelFamily.claude
      HeaderStyle.antigravity model now <;>
    simp [getAvailableHeaderStyle, stylePriority, List.find?, h1]

theorem keyUnexpired_false_mono (acc : Account) (k : RLKey) {now now1 : Nat}
    (hle : now ≤ now1) (h : keyUnexpired acc k now = false) :
    keyUnexpired acc k now1 = false := by
  unfold keyUnexpired at h ⊢
  cases hl : lookupA acc.rateLimitResetTimes k with
  | none => simp
  | some r =>
    rw [hl] at h
    simp at h ⊢
    omega

theorem isRL_false_mono (acc : Account) (fam : ModelFamily)
    (hs : HeaderStyle) (model : Option String) {now now1 : Nat}
    (hle : now ≤ now1)
    (h : isRateLimitedForHeaderStyle acc fam hs model now = false) :
    isRateLimitedForHeaderStyle acc fam hs model now1 = false := by
  unfold isRateLimitedForHeaderStyle at h ⊢
  cases model with
  | none =>
    simp only [Bool.or_eq_false_iff] at h ⊢
    exact ⟨⟨keyUnexpired_false_mono acc _ hle h.1.1,
      keyUnexpired_false_mono acc _ hle h.1.2⟩, trivial⟩
  | some mv =>
    simp only [Bool.or_eq_false_iff] at h ⊢
    exact ⟨⟨keyUnexpired_false_mono acc _ hle h.1.1,
      keyUnexpired_false_mono acc _ hle h.1.2⟩,
      keyUnexpired_false_mono acc _ hle h.2⟩

theorem eligible_mono (a : Account) (fam : ModelFamily)
    (model : Option String) {now now1 : Nat} (hle : now ≤ now1)
    (h : eligibleAccount a fam model now = true) :
    eligibleAccount a fam model now1 = true := by
  unfold eligibleAccount at h ⊢
  simp only [Bool.and_eq_true, Bool.not_eq_true'] at h ⊢
  obtain ⟨hcool, havail⟩ := h
  constructor
  · unfold isAccountCoolingDown at hcool ⊢
    cases hu : a.cooldownUntil with
    | none => rfl
    | some u =>
      rw [hu] at hcool
      simp at hcool ⊢
      omega
  · cases fam
    case claude =>
      rw [getAvailable_claude] at havail ⊢
      by_cases h1 : isRateLimitedForHeaderStyle a ModelFamily.claude
          HeaderStyle.antigravity model now = false
      · rw [if_pos (isRL_false_mono a _ _ _ hle h1)]
        rfl
      · rw [if_neg h1] at havail
        simp at havail
    case gemini =>
      rw [getAvailable_gemini] at havail ⊢
      by_cases h1 : isRateLimitedForHeaderStyle a ModelFamily.gemini
          HeaderStyle.antigravity model now = false
      · rw [if_pos (isRL_false_mono a _ _ _ hle h1)]
        rfl
      · rw [if_neg h1] at havail
        by_cases h2 : isRateLimitedForHeaderStyle a ModelFamily.gemini
            HeaderStyle.geminiCli model now = false
        · have h2m := isRL_false_mono a _ _ _ hle h2
          by_cases h1m : isRateLimitedForHeaderStyle a ModelFamily.gemini
              HeaderStyle.antigravity model now1 = false
          · rw [if_pos h1m]
            rfl
          · rw [if_neg h1m, if_pos h2m]
            rfl
        · rw [if_neg h2] at havail
          simp at havail

theorem firstEligibleFrom_char (accs : List Account) (fam : ModelFamily)
    (model : Option String) (now : Nat) :
    ∀ (steps start i : Nat),
    firstEligibleFrom accs fam model now start steps = some i →
    ∃ j, j < steps ∧ i = (start + j) % accs.length ∧
      (∃ a, accs[i]? = some a ∧ eligibleAccount a fam model now = true) ∧
      ∀ j1, j1 < j → ∀ a1, accs[(start + j1) % accs.length]? = some a1 →
        eligibleAccount a1 fam model now = false := by
  intro steps
  induction steps with
  | zero =>
    intro start i h
    exact absurd h (by simp [firstEligibleFrom])
  | succ k ih =>
    intro start i h
    unfold firstEligibleFrom at h
    cases ha : accs[start % accs.length]? with
    | none =>
      rw [ha] at h
      exact absurd h (by simp)
    | some a =>
      rw [ha] at h
      by_cases he : eligibleAccount a fam model now = true
      · simp only [he, if_true] at h
        obtain rfl : start % accs.length = i := by simpa using h
        exact ⟨0, Nat.succ_pos k, by simp, ⟨a, ha, he⟩, by omega⟩
      · simp only [he, if_false] at h
        obtain ⟨j, hj, hi, hw, hmin⟩ := ih (start % accs.length + 1) i h
        refine ⟨j + 1, by omega, ?_, hw, ?_⟩
        · rw [hi]
          have h1 : start % accs.length + 1 + j = start % accs.length + (1 + j) := by
            omega
          rw [h1, Nat.mod_add_mod]
          have h2 : start + (1 + j) = start + (j + 1) := by omega
          rw [h2]
        · intro j1 hj1 a1 ha1
          cases j1 with
          | zero =>
            simp only [Nat.add_zero] at ha1
            rw [ha] at ha1
            obtain rfl : a = a1 := by simpa using ha1
            simpa using he
          | succ j2 =>
            refine hmin j2 (by omega) a1 ?_
            have h1 : start % accs.length + 1 + j2 = start % accs.length + (1 + j2) := by
              omega
            have h2 : start + (1 + j2) = start + (j2 + 1) := by omega
            rw [h1, Nat.mod_add_mod, h2]
            exact ha1

theorem getElem?_some_lt {α : Type} (l : List α) (i : Nat) (a : α)
    (h : l[i]? = some a) : i < l.length := by
  by_contra hlt
  rw [List.getElem?_eq_none (by omega)] at h
  exact absurd h (by simp)

theorem firstEligibleFrom_zero (accs : List Account) (fam : ModelFamily)
    (model : Option String) (now start : Nat) :
    firstEligibleFrom accs fam model now start 0 = none := rfl

theorem firstEligibleFrom_succ (accs : List Account) (fam : ModelFamily)
    (model : Option String) (now start k : Nat) :
    firstEligibleFrom accs fam model now start (k + 1) =
      match accs[start % accs.length]? with
      | some a =>
        if eligibleAccount a fam model now then some (start % accs.length)
        else firstEligibleFrom accs fam model now (start % accs.length + 1) k
      | none => none := rfl

theorem firstEligibleFrom_last_ineligible (accs : List Account)
    (fam : ModelFamily) (model : Option String) (now : Nat) :
    ∀ (k start : Nat),
    (∀ a, accs[(start + k) % accs.length]? = some a →
      eligibleAccount a fam model now = false) →
    firstEligibleFrom accs fam model now start (k + 1)
      = firstEligibleFrom accs fam model now start k := by
  intro k
  induction k with
  | zero =>
    intro start h
    conv_lhs => rw [firstEligibleFrom_succ]
    conv_rhs => rw [firstEligibleFrom_zero]
    cases ha : accs[start % accs.length]? with
    | none => simp [ha]
    | some a =>
      have he := h a (by rw [Nat.add_zero]; exact ha)
      simp [ha, he, firstEligibleFrom_zero]
  | succ k ih =>
    intro start h
    conv_lhs => rw [firstEligibleFrom_succ]
    conv_rhs => rw [firstEligibleFrom_succ]
    cases ha : accs[start % accs.length]? with
    | none => simp [ha]
    | some a =>
      by_cases he : eligibleAccount a fam model now = true
      · simp [ha, he]
      · simp only [ha, he, if_false]
        refine ih (start % accs.length + 1) ?_
        intro a1 ha1
        refine h a1 ?_
        have h1 : start % accs.length + 1 + k
            = start % accs.length + (1 + k) := by omega
        have h2 : start + (1 + k) = start + (k + 1) := by omega
        rw [h1, Nat.mod_add_mod, h2] at ha1
        exact ha1

theorem scan_shift_ne (n c i j : Nat) (hc : c < n) (hj : j < n - 1)
    (hij : i = (c + 1 + j) % n) : i ≠ c := by
  subst hij
  intro h
  rcases Nat.lt_or_ge (c + 1 + j) n with hlt | hge
  · rw [Nat.mod_eq_of_lt hlt] at h
    omega
  · rw [Nat.mod_eq_sub_mod hge, Nat.mod_eq_of_lt (by omega)] at h
    omega

theorem cursorForFamily_lt (m : AccountManager) (family : ModelFamily)
    (h : 0 < m.accounts.length) :
    cursorForFamily m family < m.accounts.length := by
  unfold cursorForFamily
  split
  · assumption
  · exact h

theorem exists_scan_step (n c jt : Nat) (hc : c < n) (hjt : jt < n)
    (hne : jt ≠ c) : ∃ j1, j1 < n - 1 ∧ (c + 1 + j1) % n = jt := by
  by_cases hgt : c < jt
  · refine ⟨jt - c - 1, by omega, ?_⟩
    have h1 : c + 1 + (jt - c - 1) = jt := by omega
    rw [h1, Nat.mod_eq_of_lt hjt]
  · refine ⟨jt + n - c - 1, by omega, ?_⟩
    have h1 : c + 1 + (jt + n - c - 1) = jt + n := by omega
    rw [h1, Nat.add_mod_right]
    exact Nat.mod_eq_of_lt hjt

/-- C1: a family-level rate limit (key with no header style and no model)
makes isRateLimitedForHeaderStyle true for every header style and every model
of that family on that account; a header-style-level limit (header style set,
no model) makes it true for every model under that header style only; a
model-level limit makes it true only for that exact model under that header
style.  Stated for an account carrying no other rate-limit entries, at the
marking instant, for a positive duration. -/
theorem c1_granularity_blocking (acc : Account) (d now : Nat)
    (fam : ModelFamily) (st0 : HeaderStyle) (mdl : String)
    (hclean : acc.rateLimitResetTimes = []) (hd : 0 < d) :
    (∀ (hs : HeaderStyle) (m : Option String),
      isRateLimitedForHeaderStyle (markRateLimitedAcc acc d fam none none now)
        fam hs m now = true) ∧
    (∀ (hs : HeaderStyle) (m : Option String),
      isRateLimitedForHeaderStyle
        (markRateLimitedAcc acc d fam (some st0) none now) fam hs m now = true
        ↔ hs = st0) ∧
    (∀ (hs : HeaderStyle) (m : Option String),
      isRateLimitedForHeaderStyle
        (markRateLimitedAcc acc d fam (some st0) (some mdl) now) fam hs m now
        = true ↔ (hs = st0 ∧ m = some mdl)) := by
  have hlt : now < now + d := Nat.lt_add_of_pos_right hd
  refine ⟨?_, ?_, ?_⟩
  · intro hs m
    cases m <;>
      simp [isRateLimitedForHeaderStyle, keyUnexpired_mark,
        keyUnexpired_of_nil acc hclean, hlt]
  · intro hs m
    by_cases hhs : hs = st0
    · subst hhs
      cases m <;>
        simp [isRateLimitedForHeaderStyle, keyUnexpired_mark,
          keyUnexpired_of_nil acc hclean, hlt]
    · cases m <;>
        simp [isRateLimitedForHeaderStyle, keyUnexpired_mark,
          keyUnexpired_of_nil acc hclean, hhs]
  · intro hs m
    by_cases hhs : hs = st0
    · subst hhs
      cases m with
      | none =>
        simp [isRateLimitedForHeaderStyle, keyUnexpired_mark,
          keyUnexpired_of_nil acc hclean]
      | some mv =>
        by_cases hm : mv = mdl
        · subst hm
          simp [isRateLimitedForHeaderStyle, keyUnexpired_mark,
            keyUnexpired_of_nil acc hclean, hlt]
        · simp [isRateLimitedForHeaderStyle, keyUnexpired_mark,
            keyUnexpired_of_nil acc hclean, hm]
    · cases m <;>
        simp [isRateLimitedForHeaderStyle, keyUnexpired_mark,
          keyUnexpired_of_nil acc hclean, hhs]

/-- Account used as the concrete input of the witness theorems. -/
def wAcc : Account := { refreshToken := "r1", projectId := "p1" }

/-- Witness for C1 at a concrete input. -/
theorem c1_granularity_blocking_witness :
    (∀ (hs : HeaderStyle) (m : Option String),
      isRateLimitedForHeaderStyle
        (markRateLimitedAcc wAcc 60000 ModelFamily.gemini none none 0)
        ModelFamily.gemini hs m 0 = true) ∧
    (∀ (hs : HeaderStyle) (m : Option String),
      isRateLimitedForHeaderStyle
        (markRateLimitedAcc wAcc 60000 ModelFamily.gemini
          (some HeaderStyle.antigravity) none 0)
        ModelFamily.gemini hs m 0 = true ↔ hs = HeaderStyle.antigravity) ∧
    (∀ (hs : HeaderStyle) (m : Option String),
      isRateLimitedForHeaderStyle
        (markRateLimitedAcc wAcc 60000 ModelFamily.gemini
          (some HeaderStyle.antigravity) (some "gemini-1.5-pro") 0)
        ModelFamily.gemini hs m 0 = true
        ↔ (hs = HeaderStyle.antigravity ∧ m = some "gemini-1.5-pro")) :=
  c1_granularity_blocking wAcc 60000 0 ModelFamily.gemini
    HeaderStyle.antigravity "gemini-1.5-pro" rfl (by decide)

/-- C2: for an account marked rate-limited at time `t` with duration `d` at
some key granularity (and otherwise carrying no rate-limit entries),
isRateLimitedForHeaderStyle for that key is true at a query time `q` exactly
when `q < t + d`: true throughout the half-open window starting at the mark
and false at and after `t + d`. -/
theorem c2_window_expiry (acc : Account) (t d q : Nat) (fam : ModelFamily)
    (st0 : HeaderStyle) (mdl : String)
    (hclean : acc.rateLimitResetTimes = []) :
    (∀ (hs : HeaderStyle) (m : Option String),
      isRateLimitedForHeaderStyle (markRateLimitedAcc acc d fam none none t)
        fam hs m q = decide (q < t + d)) ∧
    (∀ (m : Option String),
      isRateLimitedForHeaderStyle
        (markRateLimitedAcc acc d fam (some st0) none t) fam st0 m q
        = decide (q < t + d)) ∧
    isRateLimitedForHeaderStyle
        (markRateLimitedAcc acc d fam (some st0) (some mdl) t) fam st0
        (some mdl) q = decide (q < t + d) := by
  refine ⟨?_, ?_, ?_⟩
  · intro hs m
    cases m <;>
      simp [isRateLimitedForHeaderStyle, keyUnexpired_mark,
        keyUnexpired_of_nil acc hclean]
  · intro m
    cases m <;>
      simp [isRateLimitedForHeaderStyle, keyUnexpired_mark,
        keyUnexpired_of_nil acc hclean]
  · simp [isRateLimitedForHeaderStyle, keyUnexpired_mark,
      keyUnexpired_of_nil acc hclean]

/-- Witness for C2 at a concrete input. -/
theorem c2_window_expiry_witness :
    (∀ (hs : HeaderStyle) (m : Option String),
      isRateLimitedForHeaderStyle
        (markRateLimitedAcc wAcc 30000 ModelFamily.gemini none none 1000)
        ModelFamily.gemini hs m 31000 = decide ((31000 : Nat) < 1000 + 30000)) ∧
    (∀ (m : Option String),
      isRateLimitedForHeaderStyle
        (markRateLimitedAcc wAcc 30000 ModelFamily.gemini
          (some HeaderStyle.geminiCli) none 1000)
        ModelFamily.gemini HeaderStyle.geminiCli m 31000
        = decide ((31000 : Nat) < 1000 + 30000)) ∧
    isRateLimitedForHeaderStyle
        (markRateLimitedAcc wAcc 30000 ModelFamily.gemini
          (some HeaderStyle.geminiCli) (some "gemini-1.5-pro") 1000)
        ModelFamily.gemini HeaderStyle.geminiCli (some "gemini-1.5-pro") 31000
        = decide ((31000 : Nat) < 1000 + 30000) :=
  c2_window_expiry wAcc 1000 30000 31000 ModelFamily.gemini
    HeaderStyle.geminiCli "gemini-1.5-pro" rfl

/-- C3: getAvailableHeaderStyle returns the first header style in
family-specific priority order that is not rate-limited: for the gemini
family antigravity, else gemini-cli, else null; for the claude family
antigravity, else null. -/
theorem c3_header_style_priority (acc : Account) (model : Option String)
    (now : Nat) :
    getAvailableHeaderStyle acc ModelFamily.gemini model now =
      (if isRateLimitedForHeaderStyle acc ModelFamily.gemini
          HeaderStyle.antigravity model now = false
       then some HeaderStyle.antigravity
       else if isRateLimitedForHeaderStyle acc ModelFamily.gemini
          HeaderStyle.geminiCli model now = false
       then some HeaderStyle.geminiCli
       else none) ∧
    getAvailableHeaderStyle acc ModelFamily.claude model now =
      (if isRateLimitedForHeaderStyle acc ModelFamily.claude
          HeaderStyle.antigravity model now = false
       then some HeaderStyle.antigravity
       else none) :=
  ⟨getAvailable_gemini acc model now, getAvailable_claude acc model now⟩

theorem cursorForFamily_set (m : AccountManager) (family : ModelFamily)
    (i : Nat) (hi : i < m.accounts.length) :
    cursorForFamily (setFamilyCursor m family i) family = i := by
  unfold cursorForFamily setFamilyCursor
  simp [lookupA_updateA, hi]

/-- C4: sticky selection is idempotent: whenever getCurrentOrNextForFamily
with the sticky strategy returns some account together with the successor
state, calling it again on that state (at the same or any later time, with no
intervening markRateLimited or markAccountCoolingDown) returns the very same
account and leaves the state — in particular the cursor — untouched. -/
theorem c4_sticky_idempotent (m : AccountManager) (family : ModelFamily)
    (model : Option String) (now now1 : Nat) (a : Account)
    (m1 : AccountManager) (hle : now ≤ now1)
    (hcall : getCurrentOrNextForFamily m family model Strategy.sticky now
      = (some a, m1)) :
    getCurrentOrNextForFamily m1 family model Strategy.sticky now1
      = (some a, m1) := by
  simp only [getCurrentOrNextForFamily, getCurrentOrNextSticky] at hcall ⊢
  cases hs : stickyScan m family model now (cursorForFamily m family) with
  | none =>
    rw [hs] at hcall
    simp at hcall
  | some i =>
    rw [hs] at hcall
    simp only [Prod.mk.injEq] at hcall
    obtain ⟨ha, hm1⟩ := hcall
    unfold stickyScan at hs
    cases hc : m.accounts[cursorForFamily m family]? with
    | none =>
      rw [hc] at hs
      simp at hs
    | some a0 =>
      rw [hc] at hs
      by_cases he : eligibleAccount a0 family model now = true
      · simp only [he, if_true] at hs
        obtain rfl : cursorForFamily m family = i := by simpa using hs
        rw [if_pos rfl] at hm1
        subst hm1
        have ha0 : a0 = a := by
          rw [hc] at ha
          simpa using ha
        subst ha0
        unfold stickyScan
        rw [hc]
        simp [eligible_mono a0 family model hle he, hc]
      · simp only [he, if_false] at hs
        obtain ⟨j, hj, hij, ⟨ae, hae, helig⟩, -⟩ :=
          firstEligibleFrom_char m.accounts family model now _ _ _ hs
        have hilt : i < m.accounts.length := getElem?_some_lt _ _ _ ha
        have hclt : cursorForFamily m family < m.accounts.length :=
          getElem?_some_lt _ _ _ hc
        have hne : i ≠ cursorForFamily m family := by
          intro hcontra
          rw [hcontra] at hij
          rcases Nat.lt_or_ge (cursorForFamily m family + 1 + j)
              m.accounts.length with hlt | hge
          · rw [Nat.mod_eq_of_lt hlt] at hij
            omega
          · rw [Nat.mod_eq_sub_mod hge,
              Nat.mod_eq_of_lt (by omega)] at hij
            omega
        rw [if_neg hne] at hm1
        subst hm1
        have hea : ae = a := by
          rw [hae] at ha
          simpa using ha
        subst hea
        have hacc : (setFamilyCursor m family i).accounts = m.accounts := rfl
        have hcur : cursorForFamily (setFamilyCursor m family i) family = i :=
          cursorForFamily_set m family i hilt
        unfold stickyScan
        rw [hcur, hacc, ha]
        simp [eligible_mono ae family model hle helig, ha]

/-- Witness for C4 at a concrete input. -/
theorem c4_sticky_idempotent_witness :
    getCurrentOrNextForFamily wM2 ModelFamily.claude none Strategy.sticky 10
      = (some wA0, wM2) :=
  c4_sticky_idempotent wM2 ModelFamily.claude none 0 10 wA0 wM2
    (by decide) (by decide)

/-- C5 counterexample: with a single-account pool the forcing variant's full
forward cycle wraps all the way around and returns the account at the current
cursor even though that account is eligible, refuting the claim's "never
returns the account at the current cursor even when that account is
eligible". -/
theorem c5_counterexample :
    cursorForFamily wM1 ModelFamily.gemini = 0 ∧
    wM1.accounts[0]? = some wA0 ∧
    eligibleAccount wA0 ModelFamily.gemini none 0 = true ∧
    (getNextForFamily wM1 ModelFamily.gemini none 0).1 = some wA0 := by
  decide

/-- C5 (amended): getNextForFamily starts its circular forward scan at
cursor + 1 and scans one full cycle, so the account at the current cursor is
considered last: whenever the cursor account is ineligible the call is
identical to sticky's call, and the cursor can stay in place (the cursor
account be returned) only when every other account is ineligible. -/
theorem c5_forcing_scan (m : AccountManager) (family : ModelFamily)
    (model : Option String) (now : Nat) :
    (∀ a0, m.accounts[cursorForFamily m family]? = some a0 →
      eligibleAccount a0 family model now = false →
      getNextForFamily m family model now
        = getCurrentOrNextForFamily m family model Strategy.sticky now) ∧
    (∀ a, (getNextForFamily m family model now).1 = some a →
      cursorForFamily (getNextForFamily m family model now).2 family
        = cursorForFamily m family →
      ∀ j a1, j < m.accounts.length → j ≠ cursorForFamily m family →
        m.accounts[j]? = some a1 →
        eligibleAccount a1 family model now = false) := by
  constructor
  · intro a0 hc0 hinelig
    have hclt : cursorForFamily m family < m.accounts.length :=
      getElem?_some_lt _ _ _ hc0
    simp only [getNextForFamily, getCurrentOrNextForFamily,
      getCurrentOrNextSticky, stickyScan]
    rw [hc0]
    simp only [hinelig, Bool.false_eq_true, if_false]
    have hlen : m.accounts.length = (m.accounts.length - 1) + 1 := by omega
    have hscan : firstEligibleFrom m.accounts family model now
        (cursorForFamily m family + 1) m.accounts.length
        = firstEligibleFrom m.accounts family model now
          (cursorForFamily m family + 1) (m.accounts.length - 1) := by
      conv_lhs => rw [hlen]
      refine firstEligibleFrom_last_ineligible m.accounts family model now
        (m.accounts.length - 1) (cursorForFamily m family + 1) ?_
      intro a1 ha1
      have hmod : (cursorForFamily m family + 1 + (m.accounts.length - 1))
          % m.accounts.length = cursorForFamily m family := by
        have h1 : cursorForFamily m family + 1 + (m.accounts.length - 1)
            = cursorForFamily m family + m.accounts.length := by omega
        rw [h1, Nat.add_mod_right]
        exact Nat.mod_eq_of_lt hclt
      rw [hmod, hc0] at ha1
      obtain rfl : a0 = a1 := by simpa using ha1
      exact hinelig
    rw [hscan]
    cases hres : firstEligibleFrom m.accounts family model now
        (cursorForFamily m family + 1) (m.accounts.length - 1) with
    | none => rfl
    | some i =>
      obtain ⟨j, hj, hij, -, -⟩ :=
        firstEligibleFrom_char m.accounts family model now _ _ _ hres
      have hne : i ≠ cursorForFamily m family :=
        scan_shift_ne m.accounts.length (cursorForFamily m family) i j hclt
          hj hij
      simp [hne]
  · intro a hsome hcursame j a1 hj hjne hga1
    simp only [getNextForFamily] at hsome hcursame
    cases hres : firstEligibleFrom m.accounts family model now
        (cursorForFamily m family + 1) m.accounts.length with
    | none =>
      rw [hres] at hsome
      simp at hsome
    | some i =>
      rw [hres] at hsome hcursame
      simp only at hsome hcursame
      have hilt : i < m.accounts.length := getElem?_some_lt _ _ _ hsome
      have hn : 0 < m.accounts.length := by omega
      have hclt : cursorForFamily m family < m.accounts.length :=
        cursorForFamily_lt m family hn
      have hic : i = cursorForFamily m family := by
        rw [cursorForFamily_set m family i hilt] at hcursame
        exact hcursame
      obtain ⟨jj, hjj, hijj, -, hmin⟩ :=
        firstEligibleFrom_char m.accounts family model now _ _ _ hres
      have hjjval : jj = m.accounts.length - 1 := by
        rw [hic] at hijj
        rcases Nat.lt_or_ge (cursorForFamily m family + 1 + jj)
            m.accounts.length with hlt | hge
        · rw [Nat.mod_eq_of_lt hlt] at hijj
          omega
        · rw [Nat.mod_eq_sub_mod hge, Nat.mod_eq_of_lt (by omega)] at hijj
          omega
      obtain ⟨j1, hj1, hmod⟩ := exists_scan_step m.accounts.length
        (cursorForFamily m family) j hclt hj hjne
      refine hmin j1 (by omega) a1 ?_
      rw [hmod]
      exact hga1

theorem firstEligibleFrom_all_ineligible (accs : List Account)
    (fam : ModelFamily) (model : Option String) (now : Nat)
    (h : ∀ a ∈ accs, eligibleAccount a fam model now = false) :
    ∀ (steps start : Nat),
    firstEligibleFrom accs fam model now start steps = none := by
  intro steps
  induction steps with
  | zero => intro start; rfl
  | succ k ih =>
    intro start
    rw [firstEligibleFrom_succ]
    cases ha : accs[start % accs.length]? with
    | none => rfl
    | some a =>
      have hm : a ∈ accs := by
        have := getElem?_some_lt _ _ _ ha
        exact List.getElem?_mem ha
      simp [h a hm, ih]

theorem firstIdxWhere_none (p : Account → Bool) (l : List Account)
    (h : ∀ a ∈ l, p a = false) : firstIdxWhere p l = none := by
  induction l with
  | nil => rfl
  | cons a rest ih =>
    have ha := h a (List.mem_cons_self a rest)
    simp only [firstIdxWhere, ha, Bool.false_eq_true, if_false]
    rw [ih (fun a1 h1 => h a1 (List.mem_cons_of_mem a h1))]
    rfl

theorem stickyScan_none (m : AccountManager) (family : ModelFamily)
    (model : Option String) (now c : Nat)
    (h : ∀ a ∈ m.accounts, eligibleAccount a family model now = false) :
    stickyScan m family model now c = none := by
  unfold stickyScan
  cases hc : m.accounts[c]? with
  | none => rfl
  | some a =>
    have hm : a ∈ m.accounts := List.getElem?_mem hc
    simp [h a hm, firstEligibleFrom_all_ineligible m.accounts family model now h]

/-- C8: when no account is eligible for a family (every account rate-limited
for every relevant header style or cooling down), getCurrentOrNextForFamily
(under every strategy) and getNextForFamily return null rather than failing;
in the embedding every modelled operation is a total function, so full
exhaustion is signalled purely by the null result. -/
theorem c8_exhaustion_returns_null (m : AccountManager)
    (family : ModelFamily) (model : Option String) (now : Nat)
    (h : ∀ a ∈ m.accounts, eligibleAccount a family model now = false) :
    (∀ strategy,
      (getCurrentOrNextForFamily m family model strategy now).1 = none) ∧
    (getNextForFamily m family model now).1 = none := by
  constructor
  · intro strategy
    cases strategy with
    | sticky =>
      simp only [getCurrentOrNextForFamily, getCurrentOrNextSticky]
      rw [stickyScan_none m family model now _ h]
    | roundRobin =>
      simp only [getCurrentOrNextForFamily, getCurrentOrNextRoundRobin]
      rw [firstEligibleFrom_all_ineligible m.accounts family model now h]
    | hybrid =>
      simp only [getCurrentOrNextForFamily, getCurrentOrNextHybrid]
      have hidx : firstIdxWhere
          (fun a => isFreshForQuota a (quotaKeyOfFamily family) now &&
            eligibleAccount a family model now) m.accounts = none := by
        refine firstIdxWhere_none _ _ ?_
        intro a ha
        simp [h a ha]
      rw [hidx, stickyScan_none m family model now _ h]
  · simp only [getNextForFamily]
    rw [firstEligibleFrom_all_ineligible m.accounts family model now h]

/-- Witness for C8 at a concrete input. -/
theorem c8_exhaustion_returns_null_witness :
    (∀ strategy,
      (getCurrentOrNextForFamily wM1blocked ModelFamily.claude none strategy
        0).1 = none) ∧
    (getNextForFamily wM1blocked ModelFamily.claude none 0).1 = none :=
  c8_exhaustion_returns_null wM1blocked ModelFamily.claude none 0 (by decide)

theorem listenerStep_settled (s : ListenerState) (h : s.settled = true)
    (e : ListenerEvent) : listenerStep s e = s := by
  cases e <;> simp [listenerStep, resolveCallback, rejectCallback, h]

theorem runListener_settled (s : ListenerState) (h : s.settled = true) :
    ∀ es, runListener s es = s := by
  intro es
  induction es with
  | nil => rfl
  | cons e rest ih =>
    simp only [runListener, listenerStep_settled s h e]
    exact ih

/-- C10: the OAuth listener's callback promise settles at most once: for any
interleaving of callback request, timeout, server error and close(), the
first event alone determines the recorded outcome and every later event
leaves the settled state untouched; moreover close() on a settled state
completes without error (both when server.close reports no error and when it
reports ERR_SERVER_NOT_RUNNING). -/
theorem c10_settles_once (e : ListenerEvent) (es : List ListenerEvent) :
    runListener { settled := false, outcome := none } (e :: es)
      = { settled := true, outcome := some (eventOutcome e) } ∧
    (∀ s : ListenerState, s.settled = true →
      (∀ e1, listenerStep s e1 = s) ∧
      closeListener s none = (s, Except.ok ()) ∧
      closeListener s (some "ERR_SERVER_NOT_RUNNING") = (s, Except.ok ())) := by
  constructor
  · have hstep : listenerStep { settled := false, outcome := none } e
        = { settled := true, outcome := some (eventOutcome e) } := by
      cases e <;>
        simp [listenerStep, resolveCallback, rejectCallback, eventOutcome]
    simp only [runListener, hstep]
    exact runListener_settled _ rfl es
  · intro s hs
    refine ⟨listenerStep_settled s hs, ?_, ?_⟩ <;>
      simp [closeListener, hs]

theorem reindexFrom_length (l : List Account) :
    ∀ k, (reindexFrom k l).length = l.length := by
  induction l with
  | nil => intro k; rfl
  | cons a rest ih =>
    intro k
    simp [reindexFrom, ih (k + 1)]

theorem reindexFrom_getElem (l : List Account) :
    ∀ (k i : Nat),
    (reindexFrom k l)[i]? = (l[i]?).map (fun a => { a with index := k + i }) := by
  induction l with
  | nil => intro k i; simp [reindexFrom]
  | cons a rest ih =>
    intro k i
    cases i with
    | zero => simp [reindexFrom]
    | succ n =>
      simp only [reindexFrom, List.getElem?_cons_succ]
      rw [ih (k + 1) n]
      simp only [show k + 1 + n = k + (n + 1) from by omega]

theorem countP_reindexFrom (p : Account → Bool)
    (hp : ∀ a k, p { a with index := k } = p a) (l : List Account) :
    ∀ k, List.countP p (reindexFrom k l) = List.countP p l := by
  induction l with
  | nil => intro k; rfl
  | cons a rest ih =>
    intro k
    simp [reindexFrom, List.countP_cons, ih (k + 1), hp]

/-- C9: after construction with a storage snapshot and a fallback credential,
the account pool mirrors the stored list exactly (the fallback never
materializes accounts, even over empty storage), the ephemeral access/expires
fields observed through getAccountsSnapshot live precisely on the
identity-matching stored accounts, and the number of accounts carrying them
equals the number of matching stored records — so with a unique match exactly
one account carries them and every other account has them unset. -/
theorem c9_fallback_attach (fb : OAuthAuthDetails) (s : AccountStorageV3) :
    (getAccountsSnapshot (mkAccountManager (some fb) (some s))).length
      = s.accounts.length ∧
    (∀ (i : Nat) (sa : StoredAccount), s.accounts[i]? = some sa →
      ∃ a : Account,
        (getAccountsSnapshot (mkAccountManager (some fb) (some s)))[i]?
          = some a ∧
        a.refreshToken = sa.refreshToken ∧ a.projectId = sa.projectId ∧
        (fallbackMatches fb sa.refreshToken sa.projectId = true →
          a.access = some fb.access ∧ a.expires = some fb.expires) ∧
        (fallbackMatches fb sa.refreshToken sa.projectId = false →
          a.access = none ∧ a.expires = none)) ∧
    List.countP (fun a => a.access.isSome || a.expires.isSome)
        (getAccountsSnapshot (mkAccountManager (some fb) (some s)))
      = List.countP (fun sa => fallbackMatches fb sa.refreshToken sa.projectId)
        s.accounts := by
  refine ⟨?_, ?_, ?_⟩
  · simp [getAccountsSnapshot, mkAccountManager, reindexFrom_length]
  · intro i sa hsa
    simp only [getAccountsSnapshot, mkAccountManager]
    rw [reindexFrom_getElem, List.getElem?_map, List.getElem?_map, hsa]
    by_cases hm : fallbackMatches fb sa.refreshToken sa.projectId = true
    · refine ⟨_, rfl, ?_⟩
      have hat : attachFallback fb (accountOfStored sa)
          = { accountOfStored sa with
              access := some fb.access, expires := some fb.expires } := by
        unfold attachFallback
        rw [if_pos]
        exact hm
      rw [hat]
      exact ⟨rfl, rfl, fun _ => ⟨rfl, rfl⟩, fun hf => absurd hm (by simp [hf])⟩
    · refine ⟨_, rfl, ?_⟩
      have hat : attachFallback fb (accountOfStored sa) = accountOfStored sa := by
        unfold attachFallback
        rw [if_neg]
        exact hm
      rw [hat]
      exact ⟨rfl, rfl, fun ht => absurd ht hm, fun _ => ⟨rfl, rfl⟩⟩
  · simp only [getAccountsSnapshot, mkAccountManager]
    rw [countP_reindexFrom (fun a => a.access.isSome || a.expires.isSome)
        (fun a k => rfl), List.countP_map, List.countP_map]
    refine List.countP_congr ?_
    intro sa hsa
    simp only [Function.comp]
    by_cases hm : fallbackMatches fb sa.refreshToken sa.projectId = true
    · have hat : attachFallback fb (accountOfStored sa)
          = { accountOfStored sa with
              access := some fb.access, expires := some fb.expires } := by
        unfold attachFallback
        rw [if_pos]
        exact hm
      rw [hat, hm]
      rfl
    · have hat : attachFallback fb (accountOfStored sa) = accountOfStored sa := by
        unfold attachFallback
        rw [if_neg]
        exact hm
      rw [hat, Bool.eq_false_iff.mpr hm]
      rfl

theorem eraseAt_length {α : Type} :
    ∀ (l : List α) (i : Nat), i < l.length →
    (eraseAt l i).length = l.length - 1 := by
  intro l
  induction l with
  | nil => intro i h; simp at h
  | cons a rest ih =>
    intro i h
    cases i with
    | zero => simp [eraseAt]
    | succ n =>
      have hn : n < rest.length := by simpa using h
      simp only [eraseAt, List.length_cons, ih n hn]
      omega

theorem firstIdxWhere_found (p : Account → Bool) :
    ∀ (l : List Account) (i : Nat), firstIdxWhere p l = some i →
    ∃ a, l[i]? = some a ∧ p a = true := by
  intro l
  induction l with
  | nil => intro i h; exact absurd h (by simp [firstIdxWhere])
  | cons a rest ih =>
    intro i h
    by_cases hp : p a = true
    · simp only [firstIdxWhere, hp, if_true] at h
      obtain rfl : (0 : Nat) = i := by simpa using h
      exact ⟨a, by simp, hp⟩
    · simp only [firstIdxWhere, hp, Bool.false_eq_true, if_false] at h
      obtain ⟨j, hj, rfl⟩ : ∃ j, firstIdxWhere p rest = some j ∧ j + 1 = i := by
        cases hr : firstIdxWhere p rest with
        | none => rw [hr] at h; simp at h
        | some j =>
          rw [hr] at h
          simp at h
          exact ⟨j, rfl, h⟩
      obtain ⟨b, hb, hpb⟩ := ih j hj
      exact ⟨b, by simpa using hb, hpb⟩

theorem countP_eraseAt (p : Account → Bool) :
    ∀ (l : List Account) (i : Nat) (a : Account), l[i]? = some a →
    List.countP p l = List.countP p (eraseAt l i)
      + (if p a then 1 else 0) := by
  intro l
  induction l with
  | nil => intro i a h; simp at h
  | cons b rest ih =>
    intro i a h
    cases i with
    | zero =>
      obtain rfl : b = a := by simpa using h
      simp only [eraseAt, List.countP_cons]
    | succ n =>
      have hn : rest[n]? = some a := by simpa using h
      simp only [eraseAt, List.countP_cons, ih n a hn]
      omega

theorem reindexFrom_identity_mem :
    ∀ (l : List Account) (k : Nat) (a1 : Account), a1 ∈ reindexFrom k l →
    ∃ b ∈ l, a1.refreshToken = b.refreshToken ∧ a1.projectId = b.projectId := by
  intro l
  induction l with
  | nil => intro k a1 h; simp [reindexFrom] at h
  | cons a rest ih =>
    intro k a1 h
    simp only [reindexFrom, List.mem_cons] at h
    cases h with
    | inl he =>
      subst he
      exact ⟨a, List.mem_cons_self a rest, rfl, rfl⟩
    | inr hm =>
      obtain ⟨b, hb, h1, h2⟩ := ih (k + 1) a1 hm
      exact ⟨b, List.mem_cons_of_mem a hb, h1, h2⟩

theorem lookupA_adjustMap (i : Nat) (l : List (ModelFamily × Nat))
    (f : ModelFamily) :
    lookupA (adjustCursorMap i l) f = (lookupA l f).map (adjustCursor i) := by
  induction l with
  | nil => rfl
  | cons p rest ih =>
    cases p with
    | mk a b =>
      by_cases hf : f = a
      · simp [adjustCursorMap, lookupA, hf]
      · simp only [adjustCursorMap, List.map_cons, lookupA, hf,
          Bool.false_eq_true, if_false]
        simpa [adjustCursorMap] using ih

theorem selection_result_identity (m1 : AccountManager)
    (family : ModelFamily) (model : Option String) (strategy : Strategy)
    (now : Nat) (a1 : Account)
    (h : (getCurrentOrNextForFamily m1 family model strategy now).1
      = some a1) :
    ∃ b ∈ m1.accounts, a1.refreshToken = b.refreshToken ∧
      a1.projectId = b.projectId := by
  cases strategy with
  | sticky =>
    simp only [getCurrentOrNextForFamily, getCurrentOrNextSticky] at h
    cases hs : stickyScan m1 family model now (cursorForFamily m1 family) with
    | none => rw [hs] at h; simp at h
    | some i =>
      rw [hs] at h
      simp only at h
      exact ⟨a1, List.getElem?_mem h, rfl, rfl⟩
  | roundRobin =>
    simp only [getCurrentOrNextForFamily, getCurrentOrNextRoundRobin] at h
    cases hs : firstEligibleFrom m1.accounts family model now
        ((lookupA m1.roundRobinCursorByFamily family).getD 0 + 1)
        m1.accounts.length with
    | none => rw [hs] at h; simp at h
    | some i =>
      rw [hs] at h
      simp only at h
      exact ⟨a1, List.getElem?_mem h, rfl, rfl⟩
  | hybrid =>
    simp only [getCurrentOrNextForFamily, getCurrentOrNextHybrid] at h
    cases hf : firstIdxWhere
        (fun a => isFreshForQuota a (quotaKeyOfFamily family) now &&
          eligibleAccount a family model now) m1.accounts with
    | some i =>
      rw [hf] at h
      simp only at h
      cases hai : m1.accounts[i]? with
      | none => rw [hai] at h; simp at h
      | some b =>
        rw [hai] at h
        obtain rfl : markTouchedForQuotaAcc b (quotaKeyOfFamily family) now
            = a1 := by simpa using h
        exact ⟨b, List.getElem?_mem hai, rfl, rfl⟩
    | none =>
      rw [hf] at h
      cases hs : stickyScan m1 family model now
          (if (lookupA m1.hybridCursorByFamily family).getD 0
              < m1.accounts.length
           then (lookupA m1.hybridCursorByFamily family).getD 0 else 0) with
      | none => rw [hs] at h; simp at h
      | some i =>
        rw [hs] at h
        simp only at h
        exact ⟨a1, List.getElem?_mem h, rfl, rfl⟩

theorem getNext_result_identity (m1 : AccountManager) (family : ModelFamily)
    (model : Option String) (now : Nat) (a1 : Account)
    (h : (getNextForFamily m1 family model now).1 = some a1) :
    ∃ b ∈ m1.accounts, a1.refreshToken = b.refreshToken ∧
      a1.projectId = b.projectId := by
  simp only [getNextForFamily] at h
  cases hs : firstEligibleFrom m1.accounts family model now
      (cursorForFamily m1 family + 1) m1.accounts.length with
  | none => rw [hs] at h; simp at h
  | some i =>
    rw [hs] at h
    simp only at h
    exact ⟨a1, List.getElem?_mem h, rfl, rfl⟩

/-- C7 counterexample: removing the middle of three accounts while the claude
cursor sits on it leaves the cursor pointing at the PRECEDING account (r1),
not at the account that slides into the removed position (r3) as the claim
states; getNextForFamily afterwards returns r3, matching the repository's
removal test. -/
theorem c7_counterexample :
    getAccountCount (removeAccount wM3 wA1) = 2 ∧
    (getCurrentAccountForFamily (removeAccount wM3 wA1)
        ModelFamily.claude).map (fun a => a.refreshToken) = some "r1" ∧
    (getCurrentAccountForFamily (removeAccount wM3 wA1)
        ModelFamily.claude).map (fun a => a.refreshToken) ≠ some "r3" ∧
    ((getNextForFamily (removeAccount wM3 wA1) ModelFamily.claude none
        0).1).map (fun a => a.refreshToken) = some "r3" := by
  decide

/-- C7 (amended): removeAccount deletes the identity-matching account found
at index i: the count drops by exactly one, no account of the new pool
carries the removed identity, every cursor at or after the removed position
is decremented by one (saturating at 0) — so a cursor equal to the removed
index comes to point at the preceding account, or at the account that slides
into position 0 when the first account was removed — and no subsequent
selection (any strategy, or the forcing variant) ever returns the removed
identity. -/
theorem c7_remove_account (m : AccountManager) (acc : Account) (i : Nat)
    (hfound : firstIdxWhere (fun a => sameIdentity a acc) m.accounts = some i)
    (huniq : List.countP (fun a => sameIdentity a acc) m.accounts ≤ 1) :
    (removeAccount m acc).accounts.length = m.accounts.length - 1 ∧
    (∀ a1 ∈ (removeAccount m acc).accounts, sameIdentity a1 acc = false) ∧
    (removeAccount m acc).activeIndex
      = (if i ≤ m.activeIndex then m.activeIndex - 1 else m.activeIndex) ∧
    (∀ f : ModelFamily,
      lookupA (removeAccount m acc).activeIndexByFamily f
        = (lookupA m.activeIndexByFamily f).map
            (fun c => if i ≤ c then c - 1 else c)) ∧
    (∀ f : ModelFamily,
      lookupA (removeAccount m acc).roundRobinCursorByFamily f
        = (lookupA m.roundRobinCursorByFamily f).map
            (fun c => if i ≤ c then c - 1 else c)) ∧
    (∀ f : ModelFamily,
      lookupA (removeAccount m acc).hybridCursorByFamily f
        = (lookupA m.hybridCursorByFamily f).map
            (fun c => if i ≤ c then c - 1 else c)) ∧
    (∀ (family : ModelFamily) (model : Option String) (strategy : Strategy)
        (now : Nat) (a1 : Account),
      (getCurrentOrNextForFamily (removeAccount m acc) family model strategy
        now).1 = some a1 → sameIdentity a1 acc = false) ∧
    (∀ (family : ModelFamily) (model : Option String) (now : Nat)
        (a1 : Account),
      (getNextForFamily (removeAccount m acc) family model now).1 = some a1 →
      sameIdentity a1 acc = false) := by
  obtain ⟨ar, har, hpar⟩ := firstIdxWhere_found _ m.accounts i hfound
  have hilt : i < m.accounts.length := getElem?_some_lt _ _ _ har
  have hrm : removeAccount m acc =
      { accounts := reindexFrom 0 (eraseAt m.accounts i),
        activeIndex := adjustCursor i m.activeIndex,
        activeIndexByFamily := adjustCursorMap i m.activeIndexByFamily,
        roundRobinCursorByFamily :=
          adjustCursorMap i m.roundRobinCursorByFamily,
        hybridCursorByFamily := adjustCursorMap i m.hybridCursorByFamily,
        toastShownAt := m.toastShownAt } := by
    unfold removeAccount
    rw [hfound]
  have hcount : List.countP (fun a => sameIdentity a acc)
      (eraseAt m.accounts i) = 0 := by
    have := countP_eraseAt (fun a => sameIdentity a acc) m.accounts i ar har
    rw [if_pos hpar] at this
    omega
  have hnomatch : ∀ a1 ∈ (removeAccount m acc).accounts,
      sameIdentity a1 acc = false := by
    intro a1 hmem
    rw [hrm] at hmem
    obtain ⟨b, hb, h1, h2⟩ := reindexFrom_identity_mem _ 0 a1 hmem
    have hbfalse : sameIdentity b acc = false := by
      by_contra hbt
      have hbt1 : sameIdentity b acc = true := by
        cases hx : sameIdentity b acc
        · exact absurd hx hbt
        · rfl
      have := List.countP_eq_zero.mp hcount b hb
      rw [hbt1] at this
      exact this rfl
    unfold sameIdentity at hbfalse ⊢
    rw [h1, h2]
    exact hbfalse
  refine ⟨?_, hnomatch, ?_, ?_, ?_, ?_, ?_, ?_⟩
  · rw [hrm]
    simp only [reindexFrom_length]
    exact eraseAt_length m.accounts i hilt
  · rw [hrm]
    rfl
  · intro f
    rw [hrm]
    exact lookupA_adjustMap i m.activeIndexByFamily f
  · intro f
    rw [hrm]
    exact lookupA_adjustMap i m.roundRobinCursorByFamily f
  · intro f
    rw [hrm]
    exact lookupA_adjustMap i m.hybridCursorByFamily f
  · intro family model strategy now a1 hsel
    obtain ⟨b, hb, h1, h2⟩ :=
      selection_result_identity (removeAccount m acc) family model strategy
        now a1 hsel
    have hbfalse := hnomatch b hb
    unfold sameIdentity at hbfalse ⊢
    rw [h1, h2]
    exact hbfalse
  · intro family model now a1 hsel
    obtain ⟨b, hb, h1, h2⟩ :=
      getNext_result_identity (removeAccount m acc) family model now a1 hsel
    have hbfalse := hnomatch b hb
    unfold sameIdentity at hbfalse ⊢
    rw [h1, h2]
    exact hbfalse

/-- Witness for C7 at a concrete input. -/
theorem c7_remove_account_witness :
    (removeAccount wM3 wA1).accounts.length = wM3.accounts.length - 1 ∧
    (∀ a1 ∈ (removeAccount wM3 wA1).accounts,
      sameIdentity a1 wA1 = false) ∧
    (removeAccount wM3 wA1).activeIndex
      = (if 1 ≤ wM3.activeIndex then wM3.activeIndex - 1
         else wM3.activeIndex) ∧
    (∀ f : ModelFamily,
      lookupA (removeAccount wM3 wA1).activeIndexByFamily f
        = (lookupA wM3.activeIndexByFamily f).map
            (fun c => if 1 ≤ c then c - 1 else c)) ∧
    (∀ f : ModelFamily,
      lookupA (removeAccount wM3 wA1).roundRobinCursorByFamily f
        = (lookupA wM3.roundRobinCursorByFamily f).map
            (fun c => if 1 ≤ c then c - 1 else c)) ∧
    (∀ f : ModelFamily,
      lookupA (removeAccount wM3 wA1).hybridCursorByFamily f
        = (lookupA wM3.hybridCursorByFamily f).map
            (fun c => if 1 ≤ c then c - 1 else c)) ∧
    (∀ (family : ModelFamily) (model : Option String) (strategy : Strategy)
        (now : Nat) (a1 : Account),
      (getCurrentOrNextForFamily (removeAccount wM3 wA1) family model
        strategy now).1 = some a1 → sameIdentity a1 wA1 = false) ∧
    (∀ (family : ModelFamily) (model : Option String) (now : Nat)
        (a1 : Account),
      (getNextForFamily (removeAccount wM3 wA1) family model now).1
        = some a1 → sameIdentity a1 wA1 = false) :=
  c7_remove_account wM3 wA1 1 (by decide) (by decide)

theorem fresh_untouched (a : Account) (key : String) (now : Nat)
    (h : lookupA a.touchedForQuota key = none) :
    isFreshForQuota a key now = true := by
  unfold isFreshForQuota
  rw [h]

theorem fresh_after_touch (a : Account) (key : String) (now : Nat) :
    isFreshForQuota (markTouchedForQuotaAcc a key now) key now = false := by
  unfold isFreshForQuota markTouchedForQuotaAcc
  simp only [lookupA_updateA, if_pos rfl]
  have hmr : maxRelevantReset
      { a with touchedForQuota := updateA a.touchedForQuota key now } key
      = maxRelevantReset a key := rfl
  rw [hmr]
  cases hr : maxRelevantReset a key with
  | none => rfl
  | some r =>
    by_cases hlt : now < r
    · have hnle : ¬ r ≤ now := by omega
      simp [hnle]
    · simp [hlt]

theorem eligible_touch (a : Account) (key : String) (now : Nat)
    (f : ModelFamily) (md : Option String) (t : Nat) :
    eligibleAccount (markTouchedForQuotaAcc a key now) f md t
      = eligibleAccount a f md t := rfl

theorem firstIdxWhere_eq_some_of (p : Account → Bool) :
    ∀ (l : List Account) (k : Nat) (a : Account),
    l[k]? = some a → p a = true →
    (∀ j, j < k → ∀ b, l[j]? = some b → p b = false) →
    firstIdxWhere p l = some k := by
  intro l
  induction l with
  | nil => intro k a h _ _; simp at h
  | cons x rest ih =>
    intro k a h hpa hbefore
    cases k with
    | zero =>
      obtain rfl : x = a := by simpa using h
      simp [firstIdxWhere, hpa]
    | succ n =>
      have hx : p x = false := hbefore 0 (Nat.succ_pos n) x (by simp)
      simp only [firstIdxWhere, hx, Bool.false_eq_true, if_false]
      rw [ih n a (by simpa using h) hpa ?_]
      · rfl
      · intro j hj b hb
        exact hbefore (j + 1) (by omega) b (by simpa using hb)

theorem modifyAt_getElem {α : Type} (f : α → α) :
    ∀ (l : List α) (i j : Nat),
    (modifyAt l i f)[j]? = if j = i then (l[i]?).map f else l[j]? := by
  intro l
  induction l with
  | nil => intro i j; simp [modifyAt]
  | cons x rest ih =>
    intro i j
    cases i with
    | zero =>
      cases j with
      | zero => simp [modifyAt]
      | succ n => simp [modifyAt]
    | succ i1 =>
      cases j with
      | zero => simp [modifyAt]
      | succ n =>
        simp only [modifyAt, List.getElem?_cons_succ, ih i1 n]
        by_cases hn : n = i1 <;> simp [hn]

theorem modifyAt_length {α : Type} (f : α → α) :
    ∀ (l : List α) (i : Nat), (modifyAt l i f).length = l.length := by
  intro l
  induction l with
  | nil => intro i; rfl
  | cons x rest ih =>
    intro i
    cases i with
    | zero => simp [modifyAt]
    | succ n => simp [modifyAt, ih n]

theorem hybrid_step (m s : AccountManager) (family : ModelFamily)
    (model : Option String) (now k : Nat)
    (helig : ∀ a ∈ m.accounts, eligibleAccount a family model now = true)
    (huntouched : ∀ a ∈ m.accounts,
      lookupA a.touchedForQuota (quotaKeyOfFamily family) = none)
    (hinv : touchInv m s family now k) (hk : k < m.accounts.length) :
    ∃ a, m.accounts[k]? = some a ∧
      (getCurrentOrNextForFamily s family model Strategy.hybrid now).1
        = some (markTouchedForQuotaAcc a (quotaKeyOfFamily family) now) ∧
      touchInv m
        (getCurrentOrNextForFamily s family model Strategy.hybrid now).2
        family now (k + 1) := by
  obtain ⟨hlen, hcur, hfields⟩ := hinv
  obtain ⟨a, ha⟩ : ∃ a, m.accounts[k]? = some a :=
    ⟨m.accounts[k], List.getElem?_eq_getElem hk⟩
  have hsk : s.accounts[k]? = some a := by
    rw [(hfields k).2 (Nat.le_refl k)]
    exact ha
  have hamem : a ∈ m.accounts := List.getElem?_mem ha
  have hpa : (isFreshForQuota a (quotaKeyOfFamily family) now &&
      eligibleAccount a family model now) = true := by
    rw [fresh_untouched a _ now (huntouched a hamem), helig a hamem]
    rfl
  have hfind : firstIdxWhere
      (fun a => isFreshForQuota a (quotaKeyOfFamily family) now &&
        eligibleAccount a family model now) s.accounts = some k := by
    refine firstIdxWhere_eq_some_of _ s.accounts k a hsk hpa ?_
    intro j hj b hb
    have hj2 : s.accounts[j]? = (m.accounts[j]?).map
        (fun a => markTouchedForQuotaAcc a (quotaKeyOfFamily family) now) :=
      (hfields j).1 hj
    rw [hj2] at hb
    cases hbj : m.accounts[j]? with
    | none => rw [hbj] at hb; simp at hb
    | some b0 =>
      rw [hbj] at hb
      obtain rfl : markTouchedForQuotaAcc b0 (quotaKeyOfFamily family) now
          = b := by simpa using hb
      rw [fresh_after_touch b0 (quotaKeyOfFamily family) now]
      rfl
  refine ⟨a, ha, ?_, ?_, ?_, ?_⟩
  · simp only [getCurrentOrNextForFamily, getCurrentOrNextHybrid, hfind,
      hsk, Option.map_some']
  · simp only [getCurrentOrNextForFamily, getCurrentOrNextHybrid, hfind]
    simpa [modifyAt_length] using hlen
  · intro _
    simp only [getCurrentOrNextForFamily, getCurrentOrNextHybrid, hfind]
    simp [lookupA_updateA]
  · intro i
    simp only [getCurrentOrNextForFamily, getCurrentOrNextHybrid, hfind]
    constructor
    · intro hik
      rw [modifyAt_getElem]
      by_cases hieq : i = k
      · subst hieq
        rw [if_pos rfl, hsk, ha]
      · rw [if_neg hieq]
        exact (hfields i).1 (by omega)
    · intro hik
      have hieq : ¬ i = k := by omega
      rw [modifyAt_getElem, if_neg hieq]
      exact (hfields i).2 (by omega)

theorem wellIndexed_spec (accs : List Account)
    (h : wellIndexed accs = true) :
    ∀ (i : Nat) (a : Account), accs[i]? = some a → a.index = i := by
  intro i a ha
  have hilt : i < accs.length := getElem?_some_lt _ _ _ ha
  have hall := List.all_eq_true.mp h i (List.mem_range.mpr hilt)
  rw [ha] at hall
  simpa using hall

/-- C6: over a pool of N accounts all eligible for a family and none yet
touched for the family's quota key, the k-th hybrid-strategy call (k < N)
returns the account at index k — every account exactly once, in ascending
index order, before any repeats — and once every account has been touched the
next call falls back to sticky behaviour anchored at the last hybrid-selected
index, returning the account at index N-1 again. -/
theorem c6_hybrid_cycle (m : AccountManager) (family : ModelFamily)
    (model : Option String) (now : Nat)
    (helig : ∀ a ∈ m.accounts, eligibleAccount a family model now = true)
    (huntouched : ∀ a ∈ m.accounts,
      lookupA a.touchedForQuota (quotaKeyOfFamily family) = none)
    (hwi : wellIndexed m.accounts = true) :
    (∀ k, k < m.accounts.length →
      ((getCurrentOrNextForFamily (hybridIter m family model now k) family
        model Strategy.hybrid now).1).map (fun a => a.index) = some k) ∧
    (0 < m.accounts.length →
      ((getCurrentOrNextForFamily
          (hybridIter m family model now m.accounts.length) family model
          Strategy.hybrid now).1).map (fun a => a.index)
        = some (m.accounts.length - 1)) := by
  have hidx := wellIndexed_spec m.accounts hwi
  have hinviter : ∀ k, k ≤ m.accounts.length →
      touchInv m (hybridIter m family model now k) family now k := by
    intro k
    induction k with
    | zero =>
      intro _
      exact ⟨rfl, fun h => absurd h (Nat.lt_irrefl 0),
        fun i => ⟨fun h => absurd h (Nat.not_lt_zero i), fun _ => rfl⟩⟩
    | succ k ih =>
      intro hk1
      have hk : k < m.accounts.length := by omega
      obtain ⟨a, ha, hres, hinv1⟩ := hybrid_step m
        (hybridIter m family model now k) family model now k helig
        huntouched (ih (by omega)) hk
      exact hinv1
  constructor
  · intro k hk
    obtain ⟨a, ha, hres, -⟩ := hybrid_step m
      (hybridIter m family model now k) family model now k helig huntouched
      (hinviter k (by omega)) hk
    rw [hres]
    have hia : (markTouchedForQuotaAcc a (quotaKeyOfFamily family)
        now).index = a.index := rfl
    simp only [Option.map_some', hia, hidx k a ha]
  · intro hn
    obtain ⟨hlen, hcur, hfields⟩ :=
      hinviter m.accounts.length (Nat.le_refl _)
    have hnofresh : firstIdxWhere
        (fun a => isFreshForQuota a (quotaKeyOfFamily family) now &&
          eligibleAccount a family model now)
        (hybridIter m family model now m.accounts.length).accounts
        = none := by
      refine firstIdxWhere_none _ _ ?_
      intro a hamem
      obtain ⟨i, hi⟩ := List.mem_iff_getElem?.mp hamem
      have hilt : i < m.accounts.length := by
        rw [← hlen]
        exact getElem?_some_lt _ _ _ hi
      rw [(hfields i).1 hilt] at hi
      cases hbi : m.accounts[i]? with
      | none => rw [hbi] at hi; simp at hi
      | some b =>
        rw [hbi] at hi
        obtain rfl : markTouchedForQuotaAcc b (quotaKeyOfFamily family) now
            = a := by simpa using hi
        rw [fresh_after_touch b (quotaKeyOfFamily family) now]
        rfl
    obtain ⟨a, ha⟩ : ∃ a, m.accounts[m.accounts.length - 1]? = some a :=
      ⟨m.accounts[m.accounts.length - 1],
        List.getElem?_eq_getElem (by omega)⟩
    have hsa : (hybridIter m family model now
        m.accounts.length).accounts[m.accounts.length - 1]?
        = some (markTouchedForQuotaAcc a (quotaKeyOfFamily family) now) := by
      rw [(hfields (m.accounts.length - 1)).1 (by omega), ha]
      rfl
    have helig1 : eligibleAccount
        (markTouchedForQuotaAcc a (quotaKeyOfFamily family) now) family
        model now = true := by
      rw [eligible_touch]
      exact helig a (List.getElem?_mem ha)
    have hcv : (lookupA (hybridIter m family model now
        m.accounts.length).hybridCursorByFamily family).getD 0
        = m.accounts.length - 1 := by
      rw [hcur hn]
      rfl
    have hclt : m.accounts.length - 1 < (hybridIter m family model now
        m.accounts.length).accounts.length := by
      rw [hlen]
      omega
    simp only [getCurrentOrNextForFamily, getCurrentOrNextHybrid, hnofresh,
      hcv, if_pos hclt]
    unfold stickyScan
    rw [hsa]
    simp only [helig1, if_true]
    rw [hsa]
    have hia : (markTouchedForQuotaAcc a (quotaKeyOfFamily family)
        now).index = a.index := rfl
    simp only [Option.map_some', hia, hidx (m.accounts.length - 1) a ha]

/-- Witness for C6 at a concrete input. -/
theorem c6_hybrid_cycle_witness :
    (∀ k, k < wM2.accounts.length →
      ((getCurrentOrNextForFamily (hybridIter wM2 ModelFamily.claude none 0
          k) ModelFamily.claude none Strategy.hybrid 0).1).map
        (fun a => a.index) = some k) ∧
    (0 < wM2.accounts.length →
      ((getCurrentOrNextForFamily
          (hybridIter wM2 ModelFamily.claude none 0 wM2.accounts.length)
          ModelFamily.claude none Strategy.hybrid 0).1).map
        (fun a => a.index) = some (wM2.accounts.length - 1)) :=
  c6_hybrid_cycle wM2 ModelFamily.claude none 0 (by decide) (by decide)
    (by decide)

end Antigravity
